import Mathlib

/-!
Verification development for `simbatch.py` (BondMachineHQ/simbatch).

The script drives batch simulations of a BondMachine design: it reads a CSV
input table, and for every row it configures an external simulation sandbox
(`simbox` commands), binds the row's values to named input signals, requests
capture of the output signals, invokes the simulation engine (`bondmachine`),
and decodes the textual readout into one CSV output row (optional prefix
stripping, ML argmax classification, benchmark latency extraction).

Strings are modelled as `List Char`.  The Python string operations used by the
script (`str.strip`, `str.split(sep)`, `str.replace`, `str.join`, `str(int)`)
are embedded below with Python semantics (ASCII whitespace; `split` keeps empty
fields and never yields an empty list of fields).  External processes are
modelled by an environment assigning a completion status to every issued call
and a readout to the simulation invocation; numeric values parsed by
`numpy.float32` in ML mode are abstracted as exact rationals supplied by a
parse function (the model's one abstraction: IEEE rounding is not modelled,
comparisons are exact).
-/

set_option autoImplicit false
set_option maxRecDepth 10000

namespace SimBatch

/-- Python `str.isspace` characters relevant to `str.strip()` (ASCII subset:
tab, newline, vertical tab, form feed, carriage return, space). -/
def pyIsSpace (c : Char) : Bool :=
  c.toNat == 9 || c.toNat == 10 || c.toNat == 11 || c.toNat == 12 ||
    c.toNat == 13 || c.toNat == 32

/-- Strip characters satisfying `p` from both ends of a string
(Python `str.strip` family). -/
def stripOn (p : Char → Bool) (s : List Char) : List Char :=
  ((s.dropWhile p).reverse.dropWhile p).reverse

/-- Python `str.strip()` with no argument: strip whitespace from both ends. -/
def pyStrip (s : List Char) : List Char :=
  stripOn pyIsSpace s

/-- Python `str.strip(",")`: strip comma characters from both ends. -/
def pyStripComma (s : List Char) : List Char :=
  stripOn (fun c => c == ',') s

/-- Python `str.split(sep)` for a one-character separator `c`: split keeping
empty fields; the result is never the empty list (splitting the empty string
yields one empty field, as in Python). -/
def splitOnChar (c : Char) : List Char → List (List Char)
  | [] => [[]]
  | a :: rest =>
    match splitOnChar c rest with
    | [] => [[a]]
    | f :: fs => if a = c then [] :: f :: fs else (a :: f) :: fs

/-- Scanner for Python `str.replace(pat, rep)` with nonempty `pat`: `k` counts
characters still to skip after a match (the head of a match is consumed by the
list pattern, the remaining `pat.length - 1` characters through `k`). -/
def pyRepGo (pat rep : List Char) : Nat → List Char → List Char
  | 0, [] => []
  | 0, c :: rest =>
    if pat.isPrefixOf (c :: rest) then
      rep ++ pyRepGo pat rep (pat.length - 1) rest
    else
      c :: pyRepGo pat rep 0 rest
  | _ + 1, [] => []
  | k + 1, _ :: rest => pyRepGo pat rep k rest

/-- Python `str.replace(pat, rep)`: replace every non-overlapping occurrence of
`pat`, scanning left to right.  An empty `pat` matches at every position
boundary, as in Python. -/
def pyReplaceAll (pat rep s : List Char) : List Char :=
  if pat.isEmpty then rep ++ s.foldr (fun c acc => c :: rep ++ acc) []
  else pyRepGo pat rep 0 s

/-- Decimal digit characters of a natural number, most significant first
(fuel-driven so that the kernel can evaluate it; `natRepr` supplies enough
fuel).  Models Python `str` of a nonnegative integer. -/
def natReprGo : Nat → Nat → List Char → List Char
  | 0, _, acc => acc
  | fuel + 1, n, acc =>
    if n < 10 then Char.ofNat (48 + n) :: acc
    else natReprGo fuel (n / 10) (Char.ofNat (48 + n % 10) :: acc)

/-- Python `str(n)` for a natural number `n`. -/
def natRepr (n : Nat) : List Char :=
  natReprGo (n + 1) n []

/-- Python `sep.join(parts)`: concatenate the parts with `sep` between
consecutive parts. -/
def joinSep (sep : List Char) : List (List Char) → List Char
  | [] => []
  | [p] => p
  | p :: ps => p ++ sep ++ joinSep sep ps

/-- Sequence a list of optional values; `none` when any entry is `none`.
Models the all-or-nothing `numpy.ndarray.astype` conversion: a single
unparsable token raises and aborts the process. -/
def allSome {α : Type} : List (Option α) → Option (List α)
  | [] => some []
  | none :: _ => none
  | some v :: os => (allSome os).map (fun vs => v :: vs)

/-- Scanner of `numpy.argmax`: keep the index of the best value seen so far and
update only on strictly greater values, so the first occurrence of the maximum
wins.  `bi` is the best index so far, `bv` its value, `i` the index of the head
of the remaining list. -/
def npArgmaxAux (bi : Nat) (bv : ℚ) (i : Nat) : List ℚ → Nat
  | [] => bi
  | v :: vs => if bv < v then npArgmaxAux i v (i + 1) vs else npArgmaxAux bi bv (i + 1) vs

/-- Model of `numpy.argmax` on a vector of parsed values: index of the first
occurrence of the maximum (0 on the empty vector, on which numpy raises). -/
def npArgmax : List ℚ → Nat
  | [] => 0
  | v :: vs => npArgmaxAux 0 v 1 vs

/-- Run configuration of the script: the module-level variables set by flag
parsing (lines 31-84 of `simbatch.py`).  `stopOnValidOf` holds the
user-supplied `-v` value (default `-1`); `numPrefix` is the display prefix
resolved by `bmnumbers -get-prefix` (default `"0f"`); `omitPrefix` is true
unless `-P` was given. -/
structure Config where
  working_dir : List Char
  simulation_steps : List Char
  isml : Bool
  benchCore : Bool
  stopOnValidOf : Int
  data_type : List Char
  numPrefix : List Char
  header : Bool
  omitPrefix : Bool

/-- One external action issued while processing a row: a sandbox configuration
command (lines 162-178), an input bind (lines 181-189), an output capture
request (lines 192-201), or the simulation engine invocation with its
stop-on-valid index and step budget (line 206). -/
inductive Call : Type
  | simboxCfg (cmd : List Char)
  | bind (name value : List Char)
  | capture (id enc : List Char)
  | sim (stop : Int) (steps : List Char)
  deriving DecidableEq

/-- Common part of every `simbox` command line. -/
def simboxBase (wd : List Char) : List Char :=
  ("simbox -simbox-file ").data ++ wd ++ ("/simboxtemp.json").data

/-- The five fixed (toggle, suspend) pairs of sandbox configuration commands,
in source order (lines 162-171); each is checked for a zero completion status
immediately after running (lines 173-178). -/
def sandboxCmds (wd : List Char) : List (List Char) :=
  [ simboxBase wd ++ (" -add \"config:show_io_pre\"").data,
    simboxBase wd ++ (" -suspend 0").data,
    simboxBase wd ++ (" -add \"config:show_io_post\"").data,
    simboxBase wd ++ (" -suspend 1").data,
    simboxBase wd ++ (" -add \"config:show_ticks\"").data,
    simboxBase wd ++ (" -suspend 2").data,
    simboxBase wd ++ (" -add \"config:show_pc\"").data,
    simboxBase wd ++ (" -suspend 3").data,
    simboxBase wd ++ (" -add \"config:show_disasm\"").data,
    simboxBase wd ++ (" -suspend 4").data ]

/-- Encoding chosen for an output capture request (lines 193-196): the
configured data type, except that in benchCore mode the output whose name
equals the literal `"o" + str(len(outputs) - 1)` is shown as `unsigned`. -/
def encodingOf (cfg : Config) (outputs : List (List Char)) (name : List Char) : List Char :=
  if cfg.benchCore ∧ name = 'o' :: natRepr (outputs.length - 1) then ("unsigned").data
  else cfg.data_type

/-- Capture requests issued for the declared outputs, in declaration order
(lines 192-201).  `outputs` is the ordered list of output signal names from
`bondmachine -list-outputs` (the values of the Python dict, whose keys are the
index strings; insertion order is preserved). -/
def captureCalls (cfg : Config) (outputs : List (List Char)) : List Call :=
  outputs.map (fun name => Call.capture name (encodingOf cfg outputs name))

/-- All external calls issued for one accepted row, in execution order:
sandbox configuration, input binds (value `i` bound to the name at index `i`
of the input signal list, lines 181-189), output captures, and the simulation
invocation whose stop condition is recomputed as `len(outputs) - 1`
(lines 203-206), ignoring `cfg.stopOnValidOf`. -/
def rowCalls (cfg : Config) (inputs outputs : List (List Char))
    (values : List (List Char)) : List Call :=
  (sandboxCmds cfg.working_dir).map Call.simboxCfg ++
    List.zipWith Call.bind inputs values ++
    captureCalls cfg outputs ++
    [Call.sim ((outputs.length : Int) - 1) cfg.simulation_steps]

/-- First call of the list whose completion status is nonzero, if any: the
script checks each `p.returncode` immediately, so the first failing call
aborts and later calls are never issued. -/
def firstFailure (st : Call → Int) : List Call → Option Call
  | [] => none
  | c :: cs => if st c ≠ 0 then some c else firstFailure st cs

/-- External behaviour seen by one row: a completion status for every call and
the standard output of the simulation invocation. -/
structure RowEnv where
  status : Call → Int
  readout : List Char

/-- Readout after line 216: stripped, and with every occurrence of the display
prefix replaced by the empty string when prefix omission is on
(lines 214-216). -/
def strippedOutline (cfg : Config) (readout : List Char) : List Char :=
  if cfg.omitPrefix then pyReplaceAll cfg.numPrefix [] (pyStrip readout)
  else pyStrip readout

/-- Result Decoder (lines 214-239): turns the raw readout into the full text
of the output row (newline excluded).  Returns `none` when ML mode fails to
parse a token (the `astype` call raises and the process dies).  `parse` stands
for `numpy.float32` conversion of one token. -/
def decodeReadout (cfg : Config) (parse : List Char → Option ℚ)
    (readout : List Char) : Option (List Char) :=
  let outline0 := strippedOutline cfg readout
  let parts := splitOnChar ' ' outline0
  let latency_cycles := parts.getLastD []
  let outline1 := if cfg.benchCore then joinSep [' '] parts.dropLast else outline0
  let lat := if cfg.benchCore then ',' :: latency_cycles else []
  if cfg.isml then
    match allSome ((splitOnChar ' ' outline1).map parse) with
    | none => none
    | some vals =>
      some ((pyReplaceAll [' '] [','] outline1 ++ ',' :: natRepr (npArgmax vals)) ++ lat)
  else
    some (pyReplaceAll [' '] [','] (pyStripComma outline1) ++ lat)

/-- Outcome of one input line of the row loop (lines 146-242): the dead
blank-line `continue` (lines 149-150), a fatal `sys.exit(2)` at the first
failing external call, a crash of the ML conversion, a written output row, or
the column-count diagnostic (lines 241-242, message
`"Error: The input file has an invalid number of columns"`). -/
inductive RowOutcome : Type
  | blankSkip
  | fatal (c : Call)
  | crash
  | ok (line : List Char)
  | columnDiag
  deriving DecidableEq

/-- Processing of one input line (lines 146-242): strip, split on commas,
dispatch on the field count, then run the external calls and decode. -/
def processRow (cfg : Config) (parse : List Char → Option ℚ)
    (inputs outputs : List (List Char)) (env : RowEnv) (rawLine : List Char) : RowOutcome :=
  let inputs_values := splitOnChar ',' (pyStrip rawLine)
  if inputs_values.length = 0 then RowOutcome.blankSkip
  else if inputs_values.length = inputs.length then
    match firstFailure env.status (rowCalls cfg inputs outputs inputs_values) with
    | some c => RowOutcome.fatal c
    | none =>
      match decodeReadout cfg parse env.readout with
      | none => RowOutcome.crash
      | some out => RowOutcome.ok out
  else RowOutcome.columnDiag

/-- A row outcome that terminates the whole process (`sys.exit(2)` on a failed
external call, or the uncaught ML conversion error). -/
def stopsBatch : RowOutcome → Bool
  | RowOutcome.fatal _ => true
  | RowOutcome.crash => true
  | _ => false

/-- The row loop from line `i` on: process each line in order, stopping the
whole batch at the first fatal or crashing row.  `envs` gives the external
behaviour of each line by its position in the input file. -/
def runBatchAux (cfg : Config) (parse : List Char → Option ℚ)
    (inputs outputs : List (List Char)) (envs : Nat → RowEnv) :
    List (List Char) → Nat → List RowOutcome
  | [], _ => []
  | line :: rest, i =>
    let o := processRow cfg parse inputs outputs (envs i) line
    if stopsBatch o then [o]
    else o :: runBatchAux cfg parse inputs outputs envs rest (i + 1)

/-- The whole row loop (lines 146-242) over the input file's lines. -/
def runBatch (cfg : Config) (parse : List Char → Option ℚ)
    (inputs outputs : List (List Char)) (envs : Nat → RowEnv)
    (lines : List (List Char)) : List RowOutcome :=
  runBatchAux cfg parse inputs outputs envs lines 0

/-- Text of the output row written for an outcome, if any. -/
def okLine : RowOutcome → Option (List Char)
  | RowOutcome.ok l => some l
  | _ => none

/-- Data rows of the output table, in the order they were written. -/
def writtenRows (os : List RowOutcome) : List (List Char) :=
  os.filterMap okLine

/-- Exit status of the process: 2 after a fatal `sys.exit(2)`, 1 after an
uncaught ML conversion error, 0 otherwise. -/
def batchExitCode (os : List RowOutcome) : Nat :=
  if os.any (fun o => o matches RowOutcome.fatal _) then 2
  else if os.any (fun o => o matches RowOutcome.crash) then 1
  else 0

/-- Header row written when the header flag is set (lines 136-143), `none`
when no header row is written at all.  In ML mode the probability columns and
the classification column are emitted; in benchCore mode `",latency_cycles"`
is appended; with neither, the header row is an empty line. -/
def headerLine (cfg : Config) (nOutputs : Nat) : Option (List Char) :=
  if cfg.header then
    some ((if cfg.isml then
            (((List.range nOutputs).map
                (fun i => ("probability_").data ++ natRepr i ++ [','])).flatten ++
              ("classification").data)
          else []) ++
          (if cfg.benchCore then (",latency_cycles").data else []))
  else none

/-- Full content of the output file as a list of written lines: the optional
header row followed by the data rows. -/
def batchOutputLines (cfg : Config) (parse : List Char → Option ℚ)
    (inputs outputs : List (List Char)) (envs : Nat → RowEnv)
    (lines : List (List Char)) : List (List Char) :=
  (match headerLine cfg outputs.length with
    | some h => [h]
    | none => []) ++
    writtenRows (runBatch cfg parse inputs outputs envs lines)

/-- Module defaults of the script (lines 31-42 and 79-84): plain mode, header
off, prefix omission on, default data type and display prefix. -/
def baseCfg : Config :=
  { working_dir := ("working_dir").data, simulation_steps := ("200").data,
    isml := false, benchCore := false, stopOnValidOf := -1,
    data_type := ("float32").data, numPrefix := ("0f").data,
    header := false, omitPrefix := true }

/-- Defaults with ML output formatting enabled (`-m`). -/
def mlCfgW : Config :=
  { baseCfg with isml := true }

/-- Defaults with benchCore mode enabled (`-b`). -/
def benchCfgW : Config :=
  { baseCfg with benchCore := true }

/-- Defaults with both ML and benchCore modes enabled. -/
def benchMlCfgW : Config :=
  { baseCfg with isml := true, benchCore := true }

/-- Finite parse table standing for `numpy.float32` on the tokens of the
concrete evaluations below; values are chosen integral so that kernel
evaluation stays cheap, and ordered as their decimal readings are. -/
def parseTableW : List Char → Option ℚ := fun t =>
  if t = ("0.1").data then some 1
  else if t = ("0.9").data then some 9
  else if t = ("3.5").data then some 7
  else none

/-- Row environment in which every external call succeeds and the simulation
prints the given readout. -/
def benignEnv (readout : List Char) : RowEnv :=
  { status := fun _ => 0, readout := readout }

/-- Row environment in which every external call fails with status 1. -/
def failEnv (readout : List Char) : RowEnv :=
  { status := fun _ => 1, readout := readout }

/-! ### Properties of the string primitives -/

theorem splitOnChar_ne_nil (c : Char) (s : List Char) : splitOnChar c s ≠ [] := by
  induction s with
  | nil => simp [splitOnChar]
  | cons a rest ih =>
    cases h : splitOnChar c rest with
    | nil => exact absurd h ih
    | cons f fs =>
      simp only [splitOnChar, h]
      split <;> simp

theorem splitOnChar_append (c : Char) (a b : List Char) :
    splitOnChar c (a ++ c :: b) = splitOnChar c a ++ splitOnChar c b := by
  induction a with
  | nil =>
    cases h : splitOnChar c b with
    | nil => exact absurd h (splitOnChar_ne_nil c b)
    | cons f fs => simp [splitOnChar, h]
  | cons x a' ih =>
    cases h' : splitOnChar c a' with
    | nil => exact absurd h' (splitOnChar_ne_nil _ _)
    | cons g gs =>
      have hsplit : splitOnChar c (a' ++ c :: b) = g :: (gs ++ splitOnChar c b) := by
        rw [ih, h']; rfl
      show splitOnChar c (x :: (a' ++ c :: b)) = splitOnChar c (x :: a') ++ splitOnChar c b
      simp only [splitOnChar, hsplit, h']
      split <;> simp

theorem splitOnChar_of_not_mem {c : Char} {s : List Char} (h : c ∉ s) :
    splitOnChar c s = [s] := by
  induction s with
  | nil => rfl
  | cons a rest ih =>
    have ha : ¬a = c := fun e => h (by simp [e])
    have hr : c ∉ rest := fun e => h (List.mem_cons_of_mem _ e)
    simp [splitOnChar, ih hr, ha]

theorem not_mem_of_mem_splitOnChar {c : Char} {s : List Char} :
    ∀ p ∈ splitOnChar c s, c ∉ p := by
  induction s with
  | nil =>
    intro p hp
    simp [splitOnChar] at hp
    simp [hp]
  | cons a rest ih =>
    intro p hp
    cases h : splitOnChar c rest with
    | nil => exact absurd h (splitOnChar_ne_nil _ _)
    | cons f fs =>
      simp only [splitOnChar, h] at hp
      by_cases hac : a = c
      · simp only [if_pos hac] at hp
        rcases List.mem_cons.mp hp with rfl | hp
        · simp
        · exact ih p (h ▸ hp)
      · simp only [if_neg hac] at hp
        rcases List.mem_cons.mp hp with rfl | hp
        · intro hc
          rcases List.mem_cons.mp hc with rfl | hcf
          · exact hac rfl
          · exact ih f (h ▸ List.mem_cons_self f fs) hcf
        · exact ih p (h ▸ List.mem_cons_of_mem f hp)

theorem splitOnChar_joinSep {c : Char} :
    ∀ {ps : List (List Char)}, ps ≠ [] → (∀ p ∈ ps, c ∉ p) →
      splitOnChar c (joinSep [c] ps) = ps
  | [], h, _ => absurd rfl h
  | [p], _, hps => by
    rw [joinSep, splitOnChar_of_not_mem (hps p (List.mem_singleton.mpr rfl))]
  | p :: p' :: ps', _, hps => by
    have hjoin : joinSep [c] (p :: p' :: ps') = p ++ c :: joinSep [c] (p' :: ps') := by
      show p ++ [c] ++ joinSep [c] (p' :: ps') = _
      simp
    rw [hjoin, splitOnChar_append,
      splitOnChar_of_not_mem (hps p (List.mem_cons_self _ _)),
      @splitOnChar_joinSep c (p' :: ps') (List.cons_ne_nil p' ps')
        (fun q hq => hps q (List.mem_cons_of_mem _ hq))]
    rfl

theorem getLastD_append {α : Type} (a : List α) {b : List α} (hb : b ≠ []) (d : α) :
    (a ++ b).getLastD d = b.getLastD d := by
  cases b with
  | nil => exact absurd rfl hb
  | cons y b' =>
    induction a generalizing d with
    | nil => rfl
    | cons x a' ih => simp only [List.cons_append, List.getLastD_cons, ih]

theorem getD_mem {α : Type} :
    ∀ (l : List α) (n : Nat) (d : α), n < l.length → l.getD n d ∈ l
  | [], n, _, h => absurd h (by simp)
  | _ :: _, 0, _, _ => List.mem_cons_self _ _
  | _ :: xs, n + 1, d, h =>
    List.mem_cons_of_mem _ (getD_mem xs n d (by simpa using h))

theorem pyRepGo_skip (pat rep : List Char) :
    ∀ (k : Nat) (t : List Char), pyRepGo pat rep k t = pyRepGo pat rep 0 (t.drop k)
  | 0, t => by rw [List.drop_zero]
  | k + 1, [] => by rw [List.drop_nil]; rfl
  | k + 1, _ :: rest => by
    rw [List.drop_succ_cons]
    exact pyRepGo_skip pat rep k rest

theorem pyRepGo_of_isPrefixOf {pat : List Char} (rep : List Char) (hne : pat ≠ [])
    {s : List Char} (hpre : pat.isPrefixOf s) :
    pyRepGo pat rep 0 s = rep ++ pyRepGo pat rep 0 (s.drop pat.length) := by
  cases s with
  | nil =>
    have : pat <+: [] := List.isPrefixOf_iff_prefix.mp hpre
    exact absurd (List.prefix_nil.mp this) hne
  | cons c rest =>
    cases pat with
    | nil => exact absurd rfl hne
    | cons p ps =>
      rw [pyRepGo, if_pos hpre, pyRepGo_skip]
      simp [List.length_cons, List.drop_succ_cons]

theorem pyRepGo_no_head {p : Char} {ps : List Char} (rep : List Char) :
    ∀ {a : List Char}, (∀ ch ∈ a, ch ≠ p) → ∀ (t : List Char),
      pyRepGo (p :: ps) rep 0 (a ++ t) = a ++ pyRepGo (p :: ps) rep 0 t
  | [], _, t => by simp
  | x :: a', ha, t => by
    have hx : ¬x = p := fun e => ha x (List.mem_cons_self _ _) e
    have hnp : ¬(p :: ps).isPrefixOf (x :: (a' ++ t)) = true := by
      intro hpre
      exact hx ((List.cons_prefix_cons.mp (List.isPrefixOf_iff_prefix.mp hpre)).1).symm
    rw [List.cons_append, pyRepGo, if_neg hnp,
      pyRepGo_no_head rep (fun ch hch => ha ch (List.mem_cons_of_mem _ hch)) t]
    rfl

/-- Characterisation of `str.replace` at a leading occurrence of the pattern:
the occurrence is replaced and scanning continues on the remainder. -/
theorem pyReplaceAll_leading (pat rep b : List Char) (hne : pat ≠ []) :
    pyReplaceAll pat rep (pat ++ b) = rep ++ pyReplaceAll pat rep b := by
  have hempty : pat.isEmpty = false := by
    cases pat with
    | nil => exact absurd rfl hne
    | cons p ps => rfl
  have hpre : pat.isPrefixOf (pat ++ b) := by
    rw [List.isPrefixOf_iff_prefix]
    exact List.prefix_append pat b
  rw [pyReplaceAll, pyReplaceAll, hempty]
  simp only [Bool.false_eq_true, if_false]
  rw [pyRepGo_of_isPrefixOf rep hne hpre, List.drop_left]

/-- Characterisation of `str.replace` at an interior occurrence: an occurrence
after a prefix `a` free of the pattern's first character is replaced as well
(so stripping is not limited to a leading occurrence). -/
theorem pyReplaceAll_interior (p : Char) (ps rep a b : List Char)
    (ha : ∀ ch ∈ a, ch ≠ p) :
    pyReplaceAll (p :: ps) rep (a ++ (p :: ps) ++ b) =
      a ++ rep ++ pyReplaceAll (p :: ps) rep b := by
  have hpre : (p :: ps).isPrefixOf ((p :: ps) ++ b) := by
    rw [List.isPrefixOf_iff_prefix]
    exact List.prefix_append _ b
  rw [pyReplaceAll, pyReplaceAll]
  simp only [List.isEmpty_cons, Bool.false_eq_true, if_false]
  rw [List.append_assoc, pyRepGo_no_head rep ha,
    pyRepGo_of_isPrefixOf rep (List.cons_ne_nil p ps) hpre, List.drop_left,
    List.append_assoc]

/-! ### Decimal representation -/

theorem natReprGo_mem {P : Char → Prop}
    (hdig : ∀ d : Nat, d < 10 → P (Char.ofNat (48 + d))) :
    ∀ (fuel n : Nat) (acc : List Char), (∀ c ∈ acc, P c) →
      ∀ c ∈ natReprGo fuel n acc, P c
  | 0, _, _, hacc, c, hc => hacc c hc
  | fuel + 1, n, acc, hacc, c, hc => by
    rw [natReprGo] at hc
    split at hc
    · rcases List.mem_cons.mp hc with rfl | hmem
      · exact hdig n (by omega)
      · exact hacc c hmem
    · refine natReprGo_mem hdig fuel (n / 10) _ ?_ c hc
      intro c' hc'
      rcases List.mem_cons.mp hc' with rfl | hmem
      · exact hdig (n % 10) (Nat.mod_lt n (by omega))
      · exact hacc c' hmem

theorem natRepr_mem {P : Char → Prop}
    (hdig : ∀ d : Nat, d < 10 → P (Char.ofNat (48 + d))) (n : Nat) :
    ∀ c ∈ natRepr n, P c :=
  natReprGo_mem hdig (n + 1) n [] (by simp)

theorem comma_not_mem_natRepr (n : Nat) : ',' ∉ natRepr n := by
  intro hc
  refine natRepr_mem (P := fun c => ¬c = ',') ?_ n ',' hc rfl
  intro d hd
  interval_cases d <;> decide

/-! ### Sequencing and argmax -/

theorem allSome_length {α : Type} :
    ∀ {l : List (Option α)} {v : List α}, allSome l = some v → v.length = l.length
  | [], v, h => by
    rw [allSome] at h
    cases h
    rfl
  | none :: os, v, h => by
    rw [allSome] at h
    exact absurd h (by simp)
  | some x :: os, v, h => by
    rw [allSome] at h
    cases hrec : allSome os with
    | none => rw [hrec] at h; exact absurd h (by simp)
    | some vs =>
      rw [hrec, Option.map_some'] at h
      cases h
      simp [allSome_length hrec]

theorem npArgmaxAux_spec :
    ∀ (l : List ℚ) (bi i : Nat) (bv : ℚ),
      (npArgmaxAux bi bv i l = bi ∧ ∀ v ∈ l, v ≤ bv) ∨
      (∃ j, j < l.length ∧ npArgmaxAux bi bv i l = i + j ∧ bv < l.getD j 0 ∧
        (∀ v ∈ l, v ≤ l.getD j 0) ∧
        (∀ j2, j2 < j → l.getD j2 0 < l.getD j 0))
  | [], bi, i, bv => Or.inl ⟨rfl, by simp⟩
  | v :: vs, bi, i, bv => by
    by_cases hlt : bv < v
    · rw [npArgmaxAux, if_pos hlt]
      rcases npArgmaxAux_spec vs i (i + 1) v with ⟨heq, hub⟩ | ⟨j, hj, heq, hgt, hub, hstrict⟩
      · refine Or.inr ⟨0, by simp, by simpa using heq, by simpa using hlt, ?_, by omega⟩
        intro w hw
        rcases List.mem_cons.mp hw with rfl | hw
        · simp
        · simpa using hub w hw
      · refine Or.inr ⟨j + 1, by simpa using hj, by omega, ?_, ?_, ?_⟩
        · simpa using lt_trans hlt hgt
        · intro w hw
          rcases List.mem_cons.mp hw with rfl | hw
          · simpa using le_of_lt hgt
          · simpa using hub w hw
        · intro j2 hj2
          cases j2 with
          | zero => simpa using hgt
          | succ k => simpa using hstrict k (by omega)
    · rw [npArgmaxAux, if_neg hlt]
      have hle : v ≤ bv := le_of_not_lt hlt
      rcases npArgmaxAux_spec vs bi (i + 1) bv with ⟨heq, hub⟩ | ⟨j, hj, heq, hgt, hub, hstrict⟩
      · refine Or.inl ⟨heq, ?_⟩
        intro w hw
        rcases List.mem_cons.mp hw with rfl | hw
        · exact hle
        · exact hub w hw
      · refine Or.inr ⟨j + 1, by simpa using hj, by omega, by simpa using hgt, ?_, ?_⟩
        · intro w hw
          rcases List.mem_cons.mp hw with rfl | hw
          · simpa using le_of_lt (lt_of_le_of_lt hle hgt)
          · simpa using hub w hw
        · intro j2 hj2
          cases j2 with
          | zero => simpa using lt_of_le_of_lt hle hgt
          | succ k => simpa using hstrict k (by omega)

/-- `npArgmax` returns a valid index of a maximal value, and every earlier
value is strictly smaller (first occurrence of the maximum). -/
theorem npArgmax_spec (l : List ℚ) (h : l ≠ []) :
    npArgmax l < l.length ∧ (∀ v ∈ l, v ≤ l.getD (npArgmax l) 0) ∧
      ∀ j2, j2 < npArgmax l → l.getD j2 0 < l.getD (npArgmax l) 0 := by
  cases l with
  | nil => exact absurd rfl h
  | cons v vs =>
    rw [npArgmax]
    rcases npArgmaxAux_spec vs 0 1 v with ⟨heq, hub⟩ | ⟨j, hj, heq, hgt, hub, hstrict⟩
    · rw [heq]
      refine ⟨by simp, ?_, by omega⟩
      intro w hw
      rcases List.mem_cons.mp hw with rfl | hw
      · simp
      · simpa using hub w hw
    · have heq' : npArgmaxAux 0 v 1 vs = j + 1 := by omega
      rw [heq']
      refine ⟨by simpa using hj, ?_, ?_⟩
      · intro w hw
        rcases List.mem_cons.mp hw with rfl | hw
        · simpa using le_of_lt hgt
        · simpa using hub w hw
      · intro j2 hj2
        cases j2 with
        | zero => simpa using hgt
        | succ k => simpa using hstrict k (by omega)

/-- On a vector whose entries are all equal, `npArgmax` returns 0. -/
theorem npArgmax_all_eq {l : List ℚ} (h : l ≠ [])
    (he : ∀ v ∈ l, v = l.getD 0 0) : npArgmax l = 0 := by
  by_contra hne
  obtain ⟨hlt, -, hstrict⟩ := npArgmax_spec l h
  have h0 : l.getD 0 0 < l.getD (npArgmax l) 0 :=
    hstrict 0 (Nat.pos_of_ne_zero hne)
  rw [he _ (getD_mem l _ 0 hlt)] at h0
  exact lt_irrefl _ h0

/-! ### External call sequencing -/

theorem firstFailure_eq_none {st : Call → Int} :
    ∀ {calls : List Call}, (∀ c ∈ calls, st c = 0) → firstFailure st calls = none
  | [], _ => rfl
  | c :: cs, h => by
    rw [firstFailure, if_neg (by simpa using h c (List.mem_cons_self _ _))]
    exact firstFailure_eq_none fun c' hc' => h c' (List.mem_cons_of_mem _ hc')

theorem firstFailure_isSome {st : Call → Int} :
    ∀ {calls : List Call}, (∃ c ∈ calls, st c ≠ 0) →
      ∃ c', firstFailure st calls = some c'
  | [], h => absurd h (by simp)
  | c :: cs, h => by
    by_cases hc : st c ≠ 0
    · exact ⟨c, by rw [firstFailure, if_pos hc]⟩
    · rw [firstFailure, if_neg hc]
      refine firstFailure_isSome ?_
      rcases h with ⟨c', hc', hne⟩
      rcases List.mem_cons.mp hc' with rfl | hmem
      · exact absurd hne hc
      · exact ⟨c', hmem, hne⟩

/-! ### Per-row facts -/

theorem splitLen_ne_zero (rawLine : List Char) :
    (splitOnChar ',' (pyStrip rawLine)).length ≠ 0 := fun he =>
  splitOnChar_ne_nil ',' (pyStrip rawLine) (List.length_eq_zero.mp he)

theorem processRow_mismatch (cfg : Config) (parse : List Char → Option ℚ)
    (inputs outputs : List (List Char)) (env : RowEnv) (rawLine : List Char)
    (h : (splitOnChar ',' (pyStrip rawLine)).length ≠ inputs.length) :
    processRow cfg parse inputs outputs env rawLine = RowOutcome.columnDiag := by
  simp only [processRow, if_neg (splitLen_ne_zero rawLine), if_neg h]

theorem processRow_ok (cfg : Config) (parse : List Char → Option ℚ)
    (inputs outputs : List (List Char)) (env : RowEnv) (rawLine : List Char)
    (out : List Char)
    (hst : ∀ c, env.status c = 0)
    (hlen : (splitOnChar ',' (pyStrip rawLine)).length = inputs.length)
    (hdec : decodeReadout cfg parse env.readout = some out) :
    processRow cfg parse inputs outputs env rawLine = RowOutcome.ok out := by
  simp only [processRow, if_neg (splitLen_ne_zero rawLine), if_pos hlen,
    firstFailure_eq_none (fun c _ => hst c), hdec]

theorem processRow_fatal_of (cfg : Config) (parse : List Char → Option ℚ)
    (inputs outputs : List (List Char)) (env : RowEnv) (rawLine : List Char)
    (hlen : (splitOnChar ',' (pyStrip rawLine)).length = inputs.length)
    (hfail : ∃ c ∈ rowCalls cfg inputs outputs (splitOnChar ',' (pyStrip rawLine)),
      env.status c ≠ 0) :
    ∃ c', processRow cfg parse inputs outputs env rawLine = RowOutcome.fatal c' := by
  obtain ⟨c', hc'⟩ := firstFailure_isSome hfail
  exact ⟨c', by simp only [processRow, if_neg (splitLen_ne_zero rawLine), if_pos hlen, hc']⟩

theorem processRow_never_blankSkip (cfg : Config) (parse : List Char → Option ℚ)
    (inputs outputs : List (List Char)) (env : RowEnv) (rawLine : List Char) :
    processRow cfg parse inputs outputs env rawLine ≠ RowOutcome.blankSkip := by
  simp only [processRow, if_neg (splitLen_ne_zero rawLine)]
  split
  · split
    · simp
    · split <;> simp
  · simp

theorem stopsBatch_processRow_false (cfg : Config) (parse : List Char → Option ℚ)
    (inputs outputs : List (List Char)) (env : RowEnv) (rawLine : List Char)
    (hst : ∀ c, env.status c = 0)
    (hdec : decodeReadout cfg parse env.readout ≠ none) :
    stopsBatch (processRow cfg parse inputs outputs env rawLine) = false := by
  by_cases hlen : (splitOnChar ',' (pyStrip rawLine)).length = inputs.length
  · obtain ⟨out, hout⟩ := Option.ne_none_iff_exists'.mp hdec
    rw [processRow_ok cfg parse inputs outputs env rawLine out hst hlen hout]
    rfl
  · rw [processRow_mismatch cfg parse inputs outputs env rawLine hlen]
    rfl

/-! ### Batch facts -/

theorem runBatchAux_cons_no_stop (cfg : Config) (parse : List Char → Option ℚ)
    (inputs outputs : List (List Char)) (envs : Nat → RowEnv)
    (line : List Char) (rest : List (List Char)) (i : Nat)
    (h : stopsBatch (processRow cfg parse inputs outputs (envs i) line) = false) :
    runBatchAux cfg parse inputs outputs envs (line :: rest) i =
      processRow cfg parse inputs outputs (envs i) line ::
        runBatchAux cfg parse inputs outputs envs rest (i + 1) := by
  rw [runBatchAux.eq_def]
  simp [h]

theorem runBatchAux_cons_stop (cfg : Config) (parse : List Char → Option ℚ)
    (inputs outputs : List (List Char)) (envs : Nat → RowEnv)
    (line : List Char) (rest : List (List Char)) (i : Nat)
    (h : stopsBatch (processRow cfg parse inputs outputs (envs i) line) = true) :
    runBatchAux cfg parse inputs outputs envs (line :: rest) i =
      [processRow cfg parse inputs outputs (envs i) line] := by
  rw [runBatchAux.eq_def]
  simp [h]

theorem runBatchAux_benign (cfg : Config) (parse : List Char → Option ℚ)
    (inputs outputs : List (List Char)) (envs : Nat → RowEnv)
    (hst : ∀ i c, (envs i).status c = 0)
    (hdec : ∀ i, decodeReadout cfg parse (envs i).readout ≠ none) :
    ∀ (lines : List (List Char)) (i : Nat),
      runBatchAux cfg parse inputs outputs envs lines i =
        (List.enumFrom i lines).map
          (fun p => processRow cfg parse inputs outputs (envs p.1) p.2)
  | [], _ => rfl
  | line :: rest, i => by
    rw [runBatchAux_cons_no_stop cfg parse inputs outputs envs line rest i
      (stopsBatch_processRow_false cfg parse inputs outputs (envs i) line (hst i) (hdec i)),
      List.enumFrom_cons, List.map_cons]
    exact congrArg _ (runBatchAux_benign cfg parse inputs outputs envs hst hdec rest (i + 1))

theorem runBatchAux_stops_append (cfg : Config) (parse : List Char → Option ℚ)
    (inputs outputs : List (List Char)) (envs : Nat → RowEnv) (line : List Char)
    (rest : List (List Char)) :
    ∀ (pre : List (List Char)) (i : Nat),
      (∀ k, k < pre.length →
        stopsBatch (processRow cfg parse inputs outputs (envs (i + k)) (pre.getD k [])) =
          false) →
      stopsBatch (processRow cfg parse inputs outputs (envs (i + pre.length)) line) = true →
      runBatchAux cfg parse inputs outputs envs (pre ++ line :: rest) i =
        runBatchAux cfg parse inputs outputs envs pre i ++
          [processRow cfg parse inputs outputs (envs (i + pre.length)) line]
  | [], i, _, hstop => by
    have hstop' : stopsBatch (processRow cfg parse inputs outputs (envs i) line) = true := by
      simpa using hstop
    rw [List.nil_append, runBatchAux_cons_stop cfg parse inputs outputs envs line rest i hstop']
    simp [runBatchAux]
  | p :: pre', i, hpre, hstop => by
    have hp0 : stopsBatch (processRow cfg parse inputs outputs (envs i) p) = false := by
      simpa using hpre 0 (by simp)
    rw [List.cons_append,
      runBatchAux_cons_no_stop cfg parse inputs outputs envs p (pre' ++ line :: rest) i hp0,
      runBatchAux_cons_no_stop cfg parse inputs outputs envs p pre' i hp0,
      List.cons_append]
    have harith : i + (p :: pre').length = i + 1 + pre'.length := by
      simp [Nat.add_comm, Nat.add_assoc, Nat.add_left_comm]
    rw [harith] at hstop ⊢
    refine congrArg _ ?_
    refine runBatchAux_stops_append cfg parse inputs outputs envs line rest pre' (i + 1)
      ?_ hstop
    intro k hk
    have := hpre (k + 1) (by simpa using hk)
    simpa [Nat.add_comm, Nat.add_assoc, Nat.add_left_comm] using this

/-! ### Claim theorems -/

theorem zipWith_bind_ne_sim :
    ∀ (inputs values : List (List Char)), ∀ c ∈ List.zipWith Call.bind inputs values,
      ∀ (st : Int) (steps : List Char), c ≠ Call.sim st steps
  | [], _, c, hc => absurd hc (by simp)
  | _ :: _, [], c, hc => absurd hc (by simp)
  | a :: as, b :: bs, c, hc => by
    rcases List.mem_cons.mp (by simpa using hc) with rfl | hmem
    · intro st steps
      simp
    · exact zipWith_bind_ne_sim as bs c hmem

/-- C3: prefix omission removes every occurrence of the display prefix from
the readout, not merely a leading one: a leading occurrence is removed with
scanning continuing on the remainder, an occurrence following text free of the
prefix's first character is removed as well, the spec's scenario readout
`"0f3.5"` decodes in plain mode to the output row `"3.5"`, and a readout with
two occurrences of `"0f"` decodes with both stripped. -/
theorem omit_removes_every_occurrence :
    (∀ pat rep b : List Char, pat ≠ [] →
      pyReplaceAll pat rep (pat ++ b) = rep ++ pyReplaceAll pat rep b) ∧
    (∀ (p : Char) (ps rep a b : List Char), (∀ ch ∈ a, ch ≠ p) →
      pyReplaceAll (p :: ps) rep (a ++ (p :: ps) ++ b) =
        a ++ rep ++ pyReplaceAll (p :: ps) rep b) ∧
    decodeReadout baseCfg (fun _ => none) (("0f3.5").data) = some (("3.5").data) ∧
    decodeReadout baseCfg (fun _ => none) (("0f0.5 0f0.25").data) =
      some (("0.5,0.25").data) := by
  refine ⟨pyReplaceAll_leading, pyReplaceAll_interior, ?_, ?_⟩ <;> decide

theorem omit_removes_every_occurrence_witness :
    pyReplaceAll (("0f").data) [] (("0f").data ++ ("3.5").data) =
        [] ++ pyReplaceAll (("0f").data) [] (("3.5").data) ∧
    pyReplaceAll ('0' :: ("f").data) [] (("3.5 ").data ++ ('0' :: ("f").data) ++ ("42").data) =
        ("3.5 ").data ++ [] ++ pyReplaceAll ('0' :: ("f").data) [] (("42").data) :=
  ⟨omit_removes_every_occurrence.1 (("0f").data) [] (("3.5").data) (by decide),
    omit_removes_every_occurrence.2.1 '0' (("f").data) [] (("3.5 ").data) (("42").data)
      (by decide)⟩

/-- C4: the call sequence of every processed row ends with the one and only
simulation invocation, whose stop condition is `output-count - 1`; both the
call sequence and the row outcome are independent of the user-supplied
stop-on-valid-of value. -/
theorem stop_condition_last_output (cfg : Config) (v : Int)
    (parse : List Char → Option ℚ) (inputs outputs values : List (List Char))
    (env : RowEnv) (rawLine : List Char) :
    (∃ pre, rowCalls cfg inputs outputs values =
        pre ++ [Call.sim ((outputs.length : Int) - 1) cfg.simulation_steps] ∧
        ∀ c ∈ pre, ∀ (st : Int) (steps : List Char), c ≠ Call.sim st steps) ∧
    rowCalls { cfg with stopOnValidOf := v } inputs outputs values =
      rowCalls cfg inputs outputs values ∧
    processRow { cfg with stopOnValidOf := v } parse inputs outputs env rawLine =
      processRow cfg parse inputs outputs env rawLine := by
  refine ⟨⟨(sandboxCmds cfg.working_dir).map Call.simboxCfg ++
      List.zipWith Call.bind inputs values ++ captureCalls cfg outputs, ?_, ?_⟩, rfl, rfl⟩
  · rw [rowCalls]
  · intro c hc st steps
    rcases List.mem_append.mp hc with hc' | hcap
    · rcases List.mem_append.mp hc' with hsb | hbind
      · obtain ⟨cmd, -, rfl⟩ := List.mem_map.mp hsb
        simp
      · exact zipWith_bind_ne_sim inputs values c hbind st steps
    · obtain ⟨name, -, rfl⟩ := List.mem_map.mp hcap
      simp

/-- C5 is refuted by the code: splitting never yields zero fields (Python
`split` returns at least one field), so the blank-line skip branch of the row
loop is dead; a blank line with two declared inputs takes the column-mismatch
branch and emits the diagnostic instead of being skipped silently. -/
theorem blank_line_not_silently_skipped :
    (∀ s : List Char, splitOnChar ',' s ≠ []) ∧
    (∀ (cfg : Config) (parse : List Char → Option ℚ)
      (inputs outputs : List (List Char)) (env : RowEnv) (rawLine : List Char),
      processRow cfg parse inputs outputs env rawLine ≠ RowOutcome.blankSkip) ∧
    processRow baseCfg (fun _ => none) [("a").data, ("b").data] [("o0").data]
      (benignEnv (("0f3.5").data)) [] = RowOutcome.columnDiag := by
  refine ⟨splitOnChar_ne_nil ',', processRow_never_blankSkip, ?_⟩
  decide

/-- C8: every capture request pairs an output name with its encoding; an
entry other than the last declared output is encoded with the configured data
type, the last declared output (whose identifier, under the BondMachine
naming convention the code compares against, is `"o" + str(n-1)`) is forced
to the unsigned encoding exactly when benchCore mode is active. -/
theorem capture_encoding_rule (cfg : Config) (outputs : List (List Char))
    (hnd : outputs.Nodup) (hne : outputs ≠ [])
    (hlast : outputs.getLast hne = 'o' :: natRepr (outputs.length - 1)) :
    captureCalls cfg outputs =
      outputs.map (fun name => Call.capture name (encodingOf cfg outputs name)) ∧
    (∀ name ∈ outputs.dropLast, encodingOf cfg outputs name = cfg.data_type) ∧
    (cfg.benchCore = true →
      encodingOf cfg outputs (outputs.getLast hne) = ("unsigned").data) ∧
    (cfg.benchCore = false →
      ∀ name ∈ outputs, encodingOf cfg outputs name = cfg.data_type) := by
  refine ⟨rfl, ?_, ?_, ?_⟩
  · intro name hname
    have hnd' : (outputs.dropLast ++ [outputs.getLast hne]).Nodup := by
      rwa [List.dropLast_append_getLast hne]
    have hdisj := (List.nodup_append.mp hnd').2.2
    have hnm : name ≠ outputs.getLast hne := by
      intro e
      exact hdisj hname (by simp [e])
    rw [encodingOf, if_neg]
    intro hcond
    exact hnm (hcond.2.trans hlast.symm)
  · intro hb
    rw [encodingOf, if_pos ⟨hb, hlast⟩]
  · intro hb name _
    rw [encodingOf, if_neg]
    intro hcond
    rw [hb] at hcond
    exact Bool.false_ne_true hcond.1

theorem capture_encoding_rule_witness :
    encodingOf benchCfgW [("o0").data, ("o1").data] (("o1").data) = ("unsigned").data ∧
    encodingOf benchCfgW [("o0").data, ("o1").data] (("o0").data) = benchCfgW.data_type := by
  have h := capture_encoding_rule benchCfgW [("o0").data, ("o1").data]
    (by decide) (by decide) (by decide)
  exact ⟨by simpa using h.2.2.1 rfl, by simpa using h.2.1 (("o0").data) (by decide)⟩

/-- C10: with the header flag set and ML mode off, the header row carries no
probability or classification fields: it is an empty line in plain mode and
the single field text `",latency_cycles"` in benchCore mode. -/
theorem header_without_ml (cfg : Config) (nOutputs : Nat)
    (hh : cfg.header = true) (hml : cfg.isml = false) :
    headerLine cfg nOutputs =
      some (if cfg.benchCore = true then (",latency_cycles").data else []) := by
  rw [headerLine, if_pos hh, hml]
  simp

theorem header_without_ml_witness :
    headerLine { baseCfg with header := true, benchCore := true } 3 =
        some ((",latency_cycles").data) ∧
    headerLine { baseCfg with header := true } 3 = some [] := by
  constructor
  · have h := header_without_ml { baseCfg with header := true, benchCore := true } 3 rfl rfl
    simpa using h
  · have h := header_without_ml { baseCfg with header := true } 3 rfl rfl
    simpa using h

theorem lastField_append_comma (x d : List Char) (hd : ',' ∉ d) :
    (splitOnChar ',' (x ++ ',' :: d)).getLastD [] = d := by
  rw [splitOnChar_append, getLastD_append _ (splitOnChar_ne_nil ',' d),
    splitOnChar_of_not_mem hd]
  rfl

/-- C1: in ML mode (without the benchCore latency suffix), whenever the
stripped readout parses as a vector of values, the decoded row's final comma
field is the decimal class index, which is a valid index of the parsed vector
carrying its maximum value with every earlier entry strictly smaller (first
occurrence wins); on an all-equal vector the index is 0. -/
theorem ml_argmax_class_index (cfg : Config) (parse : List Char → Option ℚ)
    (readout : List Char) (vals : List ℚ)
    (hml : cfg.isml = true) (hbc : cfg.benchCore = false)
    (hvals : allSome ((splitOnChar ' ' (strippedOutline cfg readout)).map parse) =
      some vals) :
    vals ≠ [] ∧
    ∃ out, decodeReadout cfg parse readout = some out ∧
      (splitOnChar ',' out).getLastD [] = natRepr (npArgmax vals) ∧
      npArgmax vals < vals.length ∧
      (∀ v ∈ vals, v ≤ vals.getD (npArgmax vals) 0) ∧
      (∀ j, j < npArgmax vals → vals.getD j 0 < vals.getD (npArgmax vals) 0) ∧
      ((∀ v ∈ vals, v = vals.getD 0 0) → npArgmax vals = 0) := by
  have hne : vals ≠ [] := by
    intro he
    have hlen := allSome_length hvals
    rw [he] at hlen
    exact splitOnChar_ne_nil ' ' (strippedOutline cfg readout)
      (List.length_eq_zero.mp (by simpa using hlen.symm))
  have hout : decodeReadout cfg parse readout =
      some (pyReplaceAll [' '] [','] (strippedOutline cfg readout) ++
        ',' :: natRepr (npArgmax vals)) := by
    simp only [decodeReadout, hml, hbc, Bool.false_eq_true, if_false, if_true, hvals,
      List.append_nil]
  obtain ⟨hlt, hub, hstrict⟩ := npArgmax_spec vals hne
  exact ⟨hne, _, hout,
    lastField_append_comma _ _ (comma_not_mem_natRepr (npArgmax vals)),
    hlt, hub, hstrict, npArgmax_all_eq hne⟩

theorem ml_argmax_class_index_witness :
    (allSome ((splitOnChar ' '
        (strippedOutline mlCfgW (("0f0.1 0f0.9").data))).map parseTableW) =
      some [1, 9]) ∧
    ∃ out, decodeReadout mlCfgW parseTableW (("0f0.1 0f0.9").data) = some out ∧
      (splitOnChar ',' out).getLastD [] = natRepr (npArgmax [1, 9]) := by
  refine ⟨by decide, ?_⟩
  obtain ⟨-, out, h1, h2, -⟩ :=
    ml_argmax_class_index mlCfgW parseTableW (("0f0.1 0f0.9").data) [1, 9]
      rfl rfl (by decide)
  exact ⟨out, h1, h2⟩

/-- C2: in benchCore mode with prefix omission on, every decoded row ends
with the latency token, the token after the last space of the prefix-stripped
readout; whenever that token carries no comma it is the written row's final
comma field; and in ML mode the class index is computed from the remaining
tokens only (the latency token is removed before the argmax) and the latency
is appended after the class index. -/
theorem bench_latency_last_field (cfg : Config) (parse : List Char → Option ℚ)
    (readout out : List Char)
    (hb : cfg.benchCore = true) (_hp : cfg.omitPrefix = true)
    (hdec : decodeReadout cfg parse readout = some out) :
    (∃ core, out = core ++ ',' ::
        (splitOnChar ' ' (strippedOutline cfg readout)).getLastD []) ∧
    (',' ∉ (splitOnChar ' ' (strippedOutline cfg readout)).getLastD [] →
      (splitOnChar ',' out).getLastD [] =
        (splitOnChar ' ' (strippedOutline cfg readout)).getLastD []) ∧
    (cfg.isml = true →
      ∃ vals, allSome
          (((splitOnChar ' ' (strippedOutline cfg readout)).dropLast).map parse) =
            some vals ∧
        ∃ core2, out = (core2 ++ ',' :: natRepr (npArgmax vals)) ++ ',' ::
          (splitOnChar ' ' (strippedOutline cfg readout)).getLastD []) := by
  cases hml : cfg.isml with
  | false =>
    have hshape : decodeReadout cfg parse readout =
        some (pyReplaceAll [' '] [','] (pyStripComma
            (joinSep [' '] (splitOnChar ' ' (strippedOutline cfg readout)).dropLast)) ++
          ',' :: (splitOnChar ' ' (strippedOutline cfg readout)).getLastD []) := by
      simp only [decodeReadout, hb, hml, if_true, Bool.false_eq_true, if_false]
    rw [hdec] at hshape
    have hout := Option.some.inj hshape
    refine ⟨⟨_, hout⟩, ?_, ?_⟩
    · intro hcomma
      rw [hout]
      exact lastField_append_comma _ _ hcomma
    · intro h
      exact absurd h (by simp)
  | true =>
    cases hall : allSome ((splitOnChar ' '
        (joinSep [' '] (splitOnChar ' ' (strippedOutline cfg readout)).dropLast)).map parse) with
    | none =>
      have hshape : decodeReadout cfg parse readout = none := by
        simp only [decodeReadout, hb, hml, if_true, hall]
      rw [hdec] at hshape
      exact absurd hshape (by simp)
    | some vals0 =>
      have hshape : decodeReadout cfg parse readout =
          some ((pyReplaceAll [' '] [','] (joinSep [' ']
              (splitOnChar ' ' (strippedOutline cfg readout)).dropLast) ++
            ',' :: natRepr (npArgmax vals0)) ++
            ',' :: (splitOnChar ' ' (strippedOutline cfg readout)).getLastD []) := by
        simp only [decodeReadout, hb, hml, if_true, hall]
      rw [hdec] at hshape
      have hout := Option.some.inj hshape
      refine ⟨⟨_, hout⟩, ?_, ?_⟩
      · intro hcomma
        rw [hout]
        exact lastField_append_comma _ _ hcomma
      · intro _
        cases hdl : (splitOnChar ' ' (strippedOutline cfg readout)).dropLast with
        | nil =>
          rw [hdl] at hall
          have hallnil : allSome ((splitOnChar ' ' (joinSep [' ']
              ([] : List (List Char)))).map parse) = allSome [parse []] := rfl
          rw [hallnil] at hall
          cases hq : parse [] with
          | none =>
            rw [hq] at hall
            exact absurd hall (by simp [allSome])
          | some q =>
            rw [hq] at hall
            have hv : vals0 = [q] := by
              have : allSome [some q] = some [q] := rfl
              rw [this] at hall
              exact (Option.some.inj hall).symm
            refine ⟨[], rfl, pyReplaceAll [' '] [','] (joinSep [' ']
              (splitOnChar ' ' (strippedOutline cfg readout)).dropLast), ?_⟩
            rw [hout, hv]
            rfl
        | cons d ds =>
          have hsp : splitOnChar ' ' (joinSep [' ']
              (splitOnChar ' ' (strippedOutline cfg readout)).dropLast) =
                (splitOnChar ' ' (strippedOutline cfg readout)).dropLast := by
            refine splitOnChar_joinSep (by rw [hdl]; exact List.cons_ne_nil d ds) ?_
            intro p hp'
            exact not_mem_of_mem_splitOnChar p (List.dropLast_subset _ hp')
          rw [hsp] at hall
          rw [hdl] at hall hout
          exact ⟨vals0, hall, _, hout⟩

theorem bench_latency_last_field_witness :
    decodeReadout benchCfgW parseTableW (("0f3.5 0f42").data) =
        some (("3.5,42").data) ∧
    (splitOnChar ',' (("3.5,42").data)).getLastD [] =
      (splitOnChar ' ' (strippedOutline benchCfgW (("0f3.5 0f42").data))).getLastD [] := by
  refine ⟨by decide, ?_⟩
  have h := bench_latency_last_field benchCfgW parseTableW (("0f3.5 0f42").data)
    (("3.5,42").data) rfl rfl (by decide)
  exact h.2.1 (by decide)

theorem runBatchAux_append_benign (cfg : Config) (parse : List Char → Option ℚ)
    (inputs outputs : List (List Char)) (envs : Nat → RowEnv)
    (hst : ∀ i c, (envs i).status c = 0)
    (hdec : ∀ i, decodeReadout cfg parse (envs i).readout ≠ none)
    (l1 l2 : List (List Char)) (i : Nat) :
    runBatchAux cfg parse inputs outputs envs (l1 ++ l2) i =
      runBatchAux cfg parse inputs outputs envs l1 i ++
        runBatchAux cfg parse inputs outputs envs l2 (i + l1.length) := by
  rw [runBatchAux_benign cfg parse inputs outputs envs hst hdec (l1 ++ l2) i,
    runBatchAux_benign cfg parse inputs outputs envs hst hdec l1 i,
    runBatchAux_benign cfg parse inputs outputs envs hst hdec l2 (i + l1.length),
    List.enumFrom_append, List.map_append]

/-- C6: a row whose field count differs from the declared input count yields
the column diagnostic and no output record, and the batch continues: with
benign external behaviour, a later valid row still produces an output
record. -/
theorem column_mismatch_soft_fail (cfg : Config) (parse : List Char → Option ℚ)
    (inputs outputs : List (List Char)) (envs : Nat → RowEnv)
    (pre mid tail : List (List Char)) (bad good : List Char)
    (hst : ∀ i c, (envs i).status c = 0)
    (hdec : ∀ i, decodeReadout cfg parse (envs i).readout ≠ none)
    (hbad : (splitOnChar ',' (pyStrip bad)).length ≠ inputs.length)
    (hgood : (splitOnChar ',' (pyStrip good)).length = inputs.length) :
    ∃ out, decodeReadout cfg parse (envs (pre.length + 1 + mid.length)).readout = some out ∧
      runBatch cfg parse inputs outputs envs (pre ++ bad :: (mid ++ good :: tail)) =
        runBatchAux cfg parse inputs outputs envs pre 0 ++
          RowOutcome.columnDiag ::
            (runBatchAux cfg parse inputs outputs envs mid (pre.length + 1) ++
              RowOutcome.ok out ::
                runBatchAux cfg parse inputs outputs envs tail
                  (pre.length + 1 + mid.length + 1)) := by
  obtain ⟨out, hout⟩ := Option.ne_none_iff_exists'.mp (hdec (pre.length + 1 + mid.length))
  refine ⟨out, hout, ?_⟩
  rw [runBatch,
    runBatchAux_append_benign cfg parse inputs outputs envs hst hdec pre
      (bad :: (mid ++ good :: tail)) 0,
    Nat.zero_add,
    runBatchAux_cons_no_stop cfg parse inputs outputs envs bad (mid ++ good :: tail)
      pre.length
      (stopsBatch_processRow_false cfg parse inputs outputs (envs pre.length) bad
        (hst pre.length) (hdec pre.length)),
    processRow_mismatch cfg parse inputs outputs (envs pre.length) bad hbad,
    runBatchAux_append_benign cfg parse inputs outputs envs hst hdec mid
      (good :: tail) (pre.length + 1),
    runBatchAux_cons_no_stop cfg parse inputs outputs envs good tail
      (pre.length + 1 + mid.length)
      (stopsBatch_processRow_false cfg parse inputs outputs
        (envs (pre.length + 1 + mid.length)) good
        (hst (pre.length + 1 + mid.length)) (hdec (pre.length + 1 + mid.length))),
    processRow_ok cfg parse inputs outputs (envs (pre.length + 1 + mid.length)) good out
      (hst (pre.length + 1 + mid.length)) hgood hout]

theorem column_mismatch_soft_fail_witness :
    runBatch baseCfg parseTableW [("a").data, ("b").data] [("o0").data]
        (fun _ => benignEnv (("0f3.5").data)) [("x").data, ("1,2").data] =
      [RowOutcome.columnDiag, RowOutcome.ok (("3.5").data)] := by
  obtain ⟨out, hout, hrun⟩ := column_mismatch_soft_fail baseCfg parseTableW
    [("a").data, ("b").data] [("o0").data] (fun _ => benignEnv (("0f3.5").data))
    [] [] [] (("x").data) (("1,2").data) (fun _ _ => rfl)
    (fun _ => (by decide : decodeReadout baseCfg parseTableW (("0f3.5").data) ≠ none))
    (by decide) (by decide)
  have h35 : decodeReadout baseCfg parseTableW
      (benignEnv (("0f3.5").data)).readout = some (("3.5").data) := by decide
  have hout35 : out = ("3.5").data := Option.some.inj (hout.symm.trans h35)
  rw [hout35] at hrun
  simpa [runBatchAux] using hrun

/-- C7: when every row before the failing one leaves the batch running and an
accepted row has some external call with a nonzero completion status, the
batch ends at that row with a fatal outcome: the process exit status is 2
(nonzero), later lines are never processed, and the output rows already
written for earlier rows are kept. -/
theorem external_failure_fatal (cfg : Config) (parse : List Char → Option ℚ)
    (inputs outputs : List (List Char)) (envs : Nat → RowEnv)
    (pre rest : List (List Char)) (line : List Char)
    (hpre : ∀ k, k < pre.length →
      stopsBatch (processRow cfg parse inputs outputs (envs k) (pre.getD k [])) = false)
    (hacc : (splitOnChar ',' (pyStrip line)).length = inputs.length)
    (hfail : ∃ c ∈ rowCalls cfg inputs outputs (splitOnChar ',' (pyStrip line)),
      (envs pre.length).status c ≠ 0) :
    ∃ c', runBatch cfg parse inputs outputs envs (pre ++ line :: rest) =
        runBatchAux cfg parse inputs outputs envs pre 0 ++ [RowOutcome.fatal c'] ∧
      batchExitCode (runBatch cfg parse inputs outputs envs (pre ++ line :: rest)) = 2 ∧
      (2 : Nat) ≠ 0 ∧
      writtenRows (runBatch cfg parse inputs outputs envs (pre ++ line :: rest)) =
        writtenRows (runBatchAux cfg parse inputs outputs envs pre 0) := by
  obtain ⟨c', hfatal⟩ :=
    processRow_fatal_of cfg parse inputs outputs (envs pre.length) line hacc hfail
  have hstop : stopsBatch
      (processRow cfg parse inputs outputs (envs (0 + pre.length)) line) = true := by
    rw [Nat.zero_add, hfatal]
    rfl
  have hrw := runBatchAux_stops_append cfg parse inputs outputs envs line rest pre 0
    (fun k hk => by rw [Nat.zero_add]; exact hpre k hk) hstop
  rw [Nat.zero_add, hfatal] at hrw
  refine ⟨c', ?_, ?_, by omega, ?_⟩
  · rw [runBatch, hrw]
  · rw [runBatch, hrw, batchExitCode]
    simp [List.any_append]
  · rw [runBatch, hrw, writtenRows, List.filterMap_append]
    simp [writtenRows, okLine]

theorem external_failure_fatal_witness :
    ∃ c', runBatch baseCfg parseTableW [("a").data, ("b").data] [("o0").data]
        (fun _ => failEnv (("0f3.5").data)) [("1,2").data] = [RowOutcome.fatal c'] ∧
      batchExitCode (runBatch baseCfg parseTableW [("a").data, ("b").data] [("o0").data]
        (fun _ => failEnv (("0f3.5").data)) [("1,2").data]) = 2 := by
  obtain ⟨c', h1, h2, -, -⟩ := external_failure_fatal baseCfg parseTableW
    [("a").data, ("b").data] [("o0").data] (fun _ => failEnv (("0f3.5").data))
    [] [] (("1,2").data) (by simp) (by decide) (by decide)
  exact ⟨c', by simpa using h1, h2⟩

theorem writtenRows_map_processRow (cfg : Config) (parse : List Char → Option ℚ)
    (inputs outputs : List (List Char)) (envs : Nat → RowEnv)
    (hst : ∀ i c, (envs i).status c = 0)
    (hdec : ∀ i, decodeReadout cfg parse (envs i).readout ≠ none) :
    ∀ ps : List (Nat × List Char),
      writtenRows (ps.map (fun p => processRow cfg parse inputs outputs (envs p.1) p.2)) =
        (ps.filter (fun p =>
            decide ((splitOnChar ',' (pyStrip p.2)).length = inputs.length))).map
          (fun p => (decodeReadout cfg parse (envs p.1).readout).getD [])
  | [] => rfl
  | (i, line) :: ps => by
    have ih := writtenRows_map_processRow cfg parse inputs outputs envs hst hdec ps
    simp only [writtenRows] at ih
    by_cases hlen : (splitOnChar ',' (pyStrip line)).length = inputs.length
    · obtain ⟨out, hout⟩ := Option.ne_none_iff_exists'.mp (hdec i)
      have hrow := processRow_ok cfg parse inputs outputs (envs i) line out (hst i) hlen hout
      have hdt : decide ((splitOnChar ',' (pyStrip line)).length = inputs.length) = true :=
        decide_eq_true hlen
      simp only [List.map_cons, writtenRows, List.filterMap_cons, hrow, okLine,
        List.filter_cons, hdt, if_true, hout, Option.getD_some]
      exact congrArg _ ih
    · have hrow := processRow_mismatch cfg parse inputs outputs (envs i) line hlen
      have hdf : decide ((splitOnChar ',' (pyStrip line)).length = inputs.length) = false :=
        decide_eq_false hlen
      simp only [List.map_cons, writtenRows, List.filterMap_cons, hrow, okLine,
        List.filter_cons, hdf, Bool.false_eq_true, if_false]
      exact ih

/-- C9: with benign external behaviour, the data rows of the output table
correspond 1:1, in order, to the accepted (column-count-valid) input rows:
the i-th written row is the decoded readout of the i-th accepted line, not of
the i-th input line. -/
theorem output_rows_match_accepted (cfg : Config) (parse : List Char → Option ℚ)
    (inputs outputs : List (List Char)) (envs : Nat → RowEnv)
    (lines : List (List Char))
    (hst : ∀ i c, (envs i).status c = 0)
    (hdec : ∀ i, decodeReadout cfg parse (envs i).readout ≠ none) :
    writtenRows (runBatch cfg parse inputs outputs envs lines) =
      ((List.enumFrom 0 lines).filter (fun p =>
          decide ((splitOnChar ',' (pyStrip p.2)).length = inputs.length))).map
        (fun p => (decodeReadout cfg parse (envs p.1).readout).getD []) := by
  rw [runBatch, runBatchAux_benign cfg parse inputs outputs envs hst hdec lines 0]
  exact writtenRows_map_processRow cfg parse inputs outputs envs hst hdec
    (List.enumFrom 0 lines)

theorem output_rows_match_accepted_witness :
    writtenRows (runBatch baseCfg parseTableW [("a").data, ("b").data] [("o0").data]
        (fun _ => benignEnv (("0f3.5").data))
        [("1,2").data, ("x").data, ("3,4").data]) =
      ((List.enumFrom 0 [("1,2").data, ("x").data, ("3,4").data]).filter (fun p =>
          decide ((splitOnChar ',' (pyStrip p.2)).length =
            ([("a").data, ("b").data] : List (List Char)).length))).map
        (fun p => (decodeReadout baseCfg parseTableW
            ((fun _ => benignEnv (("0f3.5").data)) p.1).readout).getD []) ∧
    writtenRows (runBatch baseCfg parseTableW [("a").data, ("b").data] [("o0").data]
        (fun _ => benignEnv (("0f3.5").data))
        [("1,2").data, ("x").data, ("3,4").data]) =
      [("3.5").data, ("3.5").data] := by
  refine ⟨output_rows_match_accepted baseCfg parseTableW [("a").data, ("b").data]
    [("o0").data] (fun _ => benignEnv (("0f3.5").data))
    [("1,2").data, ("x").data, ("3,4").data] (fun _ _ => rfl)
    (fun _ => (by decide : decodeReadout baseCfg parseTableW (("0f3.5").data) ≠ none)), ?_⟩
  decide

end SimBatch
